import Mathlib

/-!
Verification development for the File-Explorer repository
(src/File_Explorer.cpp and the companion implementation src/unnamed/part_000).

The engine operates on a POSIX directory tree.  We embed the tree shallowly:
a node is a regular file (byte content, permission bits, and an `ok` flag
abstracting whether read-style primitives on the node succeed:
`opendir`/`ifstream::open`) or a directory with named children; the success
of `unlink`, which POSIX decides by the parent directory's permissions and
not by the file itself, is supplied by an environment oracle where it
matters.  Paths are component lists (the C++ code joins components with
'/').  `.` and `..` entries, skipped explicitly by every C++ loop, are
simply not represented among children.
-/

mutual

inductive FNode where
  | file (content : List Nat) (perms : Nat) (ok : Bool)
  | dir (perms : Nat) (ok : Bool) (children : FEntries)
deriving DecidableEq

inductive FEntries where
  | nil
  | cons (name : String) (node : FNode) (rest : FEntries)
deriving DecidableEq

end

def FEntries.append : FEntries → FEntries → FEntries
  | .nil, ys => ys
  | .cons a n xs, ys => .cons a n (xs.append ys)

instance : Append FEntries := ⟨FEntries.append⟩

theorem FEntries.append_eq (xs ys : FEntries) : FEntries.append xs ys = xs ++ ys := rfl

theorem FEntries.nil_append (ys : FEntries) : FEntries.nil ++ ys = ys := rfl

theorem FEntries.cons_append (a : String) (n : FNode) (xs ys : FEntries) :
    (FEntries.cons a n xs) ++ ys = .cons a n (xs ++ ys) := rfl

/-- First child with the given name (models the unique directory entry). -/
def FEntries.find? : FEntries → String → Option FNode
  | .nil, _ => none
  | .cons a n rest, x => if a = x then some n else rest.find? x

/-- Replace the first child with the given name (no-op when absent). -/
def FEntries.replace : FEntries → String → FNode → FEntries
  | .nil, _, _ => .nil
  | .cons a n rest, x, m => if a = x then .cons a m rest else .cons a n (rest.replace x m)

/-- Replace the child with the given name, or add it at the end of the
enumeration when absent (a fresh directory entry). -/
def FEntries.setEntry : FEntries → String → FNode → FEntries
  | .nil, x, m => .cons x m .nil
  | .cons a n rest, x, m => if a = x then .cons x m rest else .cons a n (rest.setEntry x m)

/-- Remove the first child with the given name. -/
def FEntries.eraseEntry : FEntries → String → FEntries
  | .nil, _ => .nil
  | .cons a n rest, x => if a = x then rest else .cons a n (rest.eraseEntry x)

def FEntries.names : FEntries → List String
  | .nil => []
  | .cons a _ rest => a :: rest.names

/-- `stat`: resolve a component path from a root node. -/
def lookupN : FNode → List String → Option FNode
  | n, [] => some n
  | .file _ _ _, _ :: _ => none
  | .dir _ _ cs, a :: rest =>
    match cs.find? a with
    | some c => lookupN c rest
    | none => none

def isDirAt (fs : FNode) (p : List String) : Bool :=
  match lookupN fs p with
  | some (.dir _ _ _) => true
  | _ => false

def isFileAt (fs : FNode) (p : List String) : Bool :=
  match lookupN fs p with
  | some (.file _ _ _) => true
  | _ => false

def existsAt (fs : FNode) (p : List String) : Bool := (lookupN fs p).isSome

/-- The `ok` flag of the node at `p` (false when absent): whether
permission-sensitive primitives (`unlink`, `opendir`, `ifstream`) succeed. -/
def okAt (fs : FNode) (p : List String) : Bool :=
  match lookupN fs p with
  | some (.file _ _ ok) => ok
  | some (.dir _ ok _) => ok
  | none => false

/-- Place a node at a path whose parent directory exists.  When the parent is
missing (or a file lies on the way) the store is unchanged — the operation the
caller attempted fails. -/
def writeAt : FNode → List String → FNode → FNode
  | _, [], repl => repl
  | .file c pm ok, _ :: _, _ => .file c pm ok
  | .dir pm ok cs, [a], repl => .dir pm ok (cs.setEntry a repl)
  | .dir pm ok cs, a :: b :: rest, repl =>
    match cs.find? a with
    | some child => .dir pm ok (cs.replace a (writeAt child (b :: rest) repl))
    | none => .dir pm ok cs

/-- Remove the node at a path (`unlink`/`rmdir` effect); no-op when absent. -/
def eraseAt : FNode → List String → FNode
  | n, [] => n
  | .file c pm ok, _ :: _ => .file c pm ok
  | .dir pm ok cs, [a] => .dir pm ok (cs.eraseEntry a)
  | .dir pm ok cs, a :: b :: rest =>
    match cs.find? a with
    | some child => .dir pm ok (cs.replace a (eraseAt child (b :: rest)))
    | none => .dir pm ok cs

/-- `std::filesystem::create_directories`: create every missing component of
the path as a directory (mode 0755 = 493); stop silently at a component that
exists as a regular file (the call fails, later operations then fail too). -/
def mkdirAll : FNode → List String → FNode
  | n, [] => n
  | .file c pm ok, _ :: _ => .file c pm ok
  | .dir pm ok cs, a :: rest =>
    match cs.find? a with
    | some child => .dir pm ok (cs.replace a (mkdirAll child rest))
    | none => .dir pm ok (cs.setEntry a (mkdirAll (.dir 493 true .nil) rest))

/-- `pathLe p q`: `p` is an initial segment of `q` (the directory `p` is `q`
itself or one of its ancestors). -/
def pathLe : List String → List String → Bool
  | [], _ => true
  | _ :: _, [] => false
  | a :: as, b :: bs => (a == b) && pathLe as bs

/-- The text after the last '/' of a path (`find_last_of('/')` + `substr`):
its final component. -/
def baseNameOf : List String → String
  | [] => ""
  | [a] => a
  | _ :: b :: rest => baseNameOf (b :: rest)

theorem baseNameOf_concat (a : String) : ∀ p : List String, baseNameOf (p ++ [a]) = a
  | [] => rfl
  | [_] => rfl
  | _ :: b :: rest => baseNameOf_concat a (b :: rest)

/-!  ## Recursive search — src/File_Explorer.cpp, `searchRecursive` (596–631)

The C++ walk lowercases both the entry name and the search term with
`std::transform(..., ::tolower)` and keeps the entry when
`lowerFilename.find(lowerSearch) != npos`.  Directories are pushed with a
trailing '/' (modelled by a Bool directory marker) and then recursed into.
`opendir` failure makes the walk return with no results for that directory. -/

/-- `needleAt hay needle`: `needle` occurs at the start of `hay`. -/
def needleAt : List Char → List Char → Bool
  | _, [] => true
  | [], _ :: _ => false
  | h :: hs, n :: ns => (h == n) && needleAt hs ns

/-- `std::string::find(needle) != npos`: `needle` occurs somewhere in `hay`. -/
def hasSub : List Char → List Char → Bool
  | [], needle => needle.isEmpty
  | h :: hs, needle => needleAt (h :: hs) needle || hasSub hs needle

/-- Case-insensitive substring match on a base name, exactly as the C++
search does it: lowercase both strings then run `find`. -/
def matchCI (name term : String) : Bool :=
  hasSub (name.data.map Char.toLower) (term.data.map Char.toLower)

mutual

/-- `searchRecursive(path, term, results)` restricted to the subtree rooted at
one node; `path` is the node's own absolute path.  `opendir` fails on a
regular file or an unreadable directory, contributing nothing. -/
def searchRecursive (term : String) (path : List String) : FNode → List (List String × Bool)
  | .file _ _ _ => []
  | .dir _ ok cs => if ok then searchEntries term path cs else []

/-- The `readdir` loop of the search: own-name match first, then recursion
into the child, then the remaining siblings. -/
def searchEntries (term : String) (path : List String) : FEntries → List (List String × Bool)
  | .nil => []
  | .cons a n rest =>
    (if matchCI a term then [(path ++ [a], n matches FNode.dir _ _ _)] else [])
      ++ searchRecursive term (path ++ [a]) n
      ++ searchEntries term path rest

end

mutual

/-- All entries of a subtree: full path plus directory marker, in the
pre-order the search walk visits them. -/
def entriesOf (path : List String) : FNode → List (List String × Bool)
  | .file _ _ _ => []
  | .dir _ _ cs => entriesOfE path cs

def entriesOfE (path : List String) : FEntries → List (List String × Bool)
  | .nil => []
  | .cons a n rest =>
    (path ++ [a], n matches FNode.dir _ _ _) :: entriesOf (path ++ [a]) n ++ entriesOfE path rest

end

mutual

/-- Every directory in the subtree is readable (its `opendir` succeeds). -/
def allReadable : FNode → Bool
  | .file _ _ _ => true
  | .dir _ ok cs => ok && allReadableE cs

def allReadableE : FEntries → Bool
  | .nil => true
  | .cons _ n rest => allReadable n && allReadableE rest

end

theorem searchEntries_append (term : String) (path : List String) :
    ∀ xs ys : FEntries,
      searchEntries term path (xs ++ ys) = searchEntries term path xs ++ searchEntries term path ys
  | .nil, ys => by simp [searchEntries, FEntries.nil_append]
  | .cons a n xs, ys => by
    simp [searchEntries, FEntries.cons_append, FEntries.append_eq,
      searchEntries_append term path xs ys]

mutual

theorem searchRecursive_eq_filter (term : String) :
    ∀ (path : List String) (n : FNode), allReadable n = true →
      searchRecursive term path n
        = (entriesOf path n).filter (fun e => matchCI (baseNameOf e.1) term)
  | _, .file _ _ _, _ => by simp [searchRecursive, entriesOf]
  | path, .dir pm ok cs, h => by
    have hok : ok = true := by
      have := h; simp [allReadable, Bool.and_eq_true] at this; exact this.1
    have hcs : allReadableE cs = true := by
      have := h; simp [allReadable, Bool.and_eq_true] at this; exact this.2
    simp [searchRecursive, entriesOf, hok, searchEntries_eq_filter term path cs hcs]

theorem searchEntries_eq_filter (term : String) :
    ∀ (path : List String) (cs : FEntries), allReadableE cs = true →
      searchEntries term path cs
        = (entriesOfE path cs).filter (fun e => matchCI (baseNameOf e.1) term)
  | _, .nil, _ => by simp [searchEntries, entriesOfE]
  | path, .cons a n rest, h => by
    have hn : allReadable n = true := by
      have := h; simp [allReadableE, Bool.and_eq_true] at this; exact this.1
    have hrest : allReadableE rest = true := by
      have := h; simp [allReadableE, Bool.and_eq_true] at this; exact this.2
    simp only [searchEntries, entriesOfE, List.filter_cons, List.filter_append,
      baseNameOf_concat, searchRecursive_eq_filter term (path ++ [a]) n hn,
      searchEntries_eq_filter term path rest hrest]
    by_cases hm : matchCI a term <;> simp [hm]

end

/-- C2.  Over any readable tree, the recursive search returns exactly those
entries whose base name contains the search term as a case-insensitive
substring: it equals the full pre-order enumeration of the subtree filtered
by the case-insensitive base-name match (so base names, never full paths,
decide membership). -/
theorem search_returns_exactly_basename_matches (term : String) (path : List String)
    (t : FNode) (h : allReadable t = true) :
    searchRecursive term path t
      = (entriesOf path t).filter (fun e => matchCI (baseNameOf e.1) term) :=
  searchRecursive_eq_filter term path t h

/-- The spec's own example tree: `root/a/Report.txt`, `root/b/monthly_report/`,
`root/c/readme.md`. -/
def exampleTree : FNode :=
  .dir 493 true
    (.cons "a" (.dir 493 true (.cons "Report.txt" (.file [82] 420 true) .nil))
      (.cons "b" (.dir 493 true (.cons "monthly_report" (.dir 493 true .nil) .nil))
        (.cons "c" (.dir 493 true (.cons "readme.md" (.file [114] 420 true) .nil)) .nil)))

/-- Witness for C2: on the spec's example, searching "report" returns exactly
`Report.txt` and `monthly_report` (the directory marked as such) and excludes
`readme.md`. -/
theorem search_returns_exactly_basename_matches_witness :
    searchRecursive "report" ["root"] exampleTree
        = (entriesOf ["root"] exampleTree).filter (fun e => matchCI (baseNameOf e.1) "report")
      ∧ searchRecursive "report" ["root"] exampleTree
        = [(["root", "a", "Report.txt"], false), (["root", "b", "monthly_report"], true)] :=
  ⟨search_returns_exactly_basename_matches "report" ["root"] exampleTree (by decide),
   by decide⟩

/-- C8.  A permission-denied subdirectory inside a searched tree is skipped:
its contents contribute nothing (replacing them by an empty listing leaves the
result unchanged), and the results of the sibling branches on both sides of it
are all still produced — the walk never aborts and the call as a whole still
returns normally. -/
theorem search_skips_unreadable_and_keeps_siblings (term : String) (path : List String)
    (pm : Nat) (ok : Bool) (es₁ : FEntries) (a : String) (dpm : Nat) (dcs : FEntries)
    (es₂ : FEntries) :
    searchRecursive term path (.dir pm ok (es₁ ++ .cons a (.dir dpm false dcs) es₂))
        = searchRecursive term path (.dir pm ok (es₁ ++ .cons a (.dir dpm false .nil) es₂))
      ∧ searchEntries term path (es₁ ++ .cons a (.dir dpm false dcs) es₂)
        = searchEntries term path es₁
          ++ (if matchCI a term then [(path ++ [a], true)] else [])
          ++ searchEntries term path es₂ := by
  have h2 : searchEntries term path (es₁ ++ .cons a (.dir dpm false dcs) es₂)
      = searchEntries term path es₁
        ++ (if matchCI a term then [(path ++ [a], true)] else [])
        ++ searchEntries term path es₂ := by
    rw [searchEntries_append]
    simp [searchEntries, searchRecursive]
  have h2' : searchEntries term path (es₁ ++ .cons a (.dir dpm false .nil) es₂)
      = searchEntries term path es₁
        ++ (if matchCI a term then [(path ++ [a], true)] else [])
        ++ searchEntries term path es₂ := by
    rw [searchEntries_append]
    simp [searchEntries, searchRecursive]
  refine ⟨?_, h2⟩
  simp [searchRecursive, h2, h2']

/-!  ## Recursive copy — src/File_Explorer.cpp, `copyFileInternal` (313–336)
and `copyDirectoryRecursive` (339–387)

`copyFileInternal` opens the source (`ifstream`, fails when the source is
unreadable), opens the destination (`ofstream`), streams the bytes, and then
`chmod`s the destination to the source's permission bits.

`copyDirectoryRecursive` stats the source, `mkdir`s the destination with the
source's mode, opens the source directory and walks its entries: directories
recurse, files go through `copyFileInternal`, and — decisive for C1 — any
child failure sets `success = false` and executes `break`, abandoning the
remaining sibling entries; the function returns a single `bool`.

The walk below builds the destination subtree produced for a fresh,
disjoint destination (within the recursion every destination entry is newly
created, so inner `mkdir`s succeed and inner `ofstream`s have their parent
directory; the freshness of the top-level destination itself is checked by
the path-level wrapper).  Umask filtering of `mkdir` modes is ignored.
Newly created nodes are accessible to their creator (`ok := true`). -/

mutual

/-- `copyDirectoryRecursive` on the source subtree: success flag plus the
destination subtree it leaves behind.  On a regular-file source `stat` and
`mkdir` succeed but `opendir` fails, so a (bogus) empty destination directory
is left behind — exactly what the C++ does. -/
def copyNode : FNode → Bool × FNode
  | .file _ pm _ => (false, .dir pm true .nil)
  | .dir pm ok cs =>
    if ok then
      match copyEntries cs with
      | (s, ds) => (s, .dir pm true ds)
    else (false, .dir pm true .nil)

/-- The `readdir` loop of the directory copy, with its early `break`:
a failing file child contributes nothing and stops the loop; a failing
directory child leaves its partial destination and stops the loop. -/
def copyEntries : FEntries → Bool × FEntries
  | .nil => (true, .nil)
  | .cons a (.file c pm ok) rest =>
    if ok then
      match copyEntries rest with
      | (s, ds) => (s, .cons a (.file c pm true) ds)
    else (false, .nil)
  | .cons a (.dir dpm dok dcs) rest =>
    match copyNode (.dir dpm dok dcs) with
    | (true, d) =>
      match copyEntries rest with
      | (s, ds) => (s, .cons a d ds)
    | (false, d) => (false, .cons a d .nil)

end

/-- One iteration of the copy loop, in isolation: the success flag and the
destination entries (none, or exactly one) that copying this child leaves. -/
def copyChild (a : String) : FNode → Bool × FEntries
  | .file c pm ok => if ok then (true, .cons a (.file c pm true) .nil) else (false, .nil)
  | .dir dpm dok dcs =>
    match copyNode (.dir dpm dok dcs) with
    | (s, d) => (s, .cons a d .nil)

/-- Every child of the list copies successfully. -/
def allCopyOk : FEntries → Bool
  | .nil => true
  | .cons a n rest => (copyChild a n).1 && allCopyOk rest

theorem copyEntries_cons (a : String) (n : FNode) (rest : FEntries) :
    copyEntries (.cons a n rest)
      = if (copyChild a n).1
          then ((copyEntries rest).1, (copyChild a n).2 ++ (copyEntries rest).2)
          else (false, (copyChild a n).2) := by
  match n with
  | .file c pm ok =>
    by_cases h : ok = true
    · simp [copyEntries, copyChild, h, FEntries.cons_append, FEntries.nil_append]
    · simp at h
      simp [copyEntries, copyChild, h]
  | .dir dpm dok dcs =>
    match hc : copyNode (.dir dpm dok dcs) with
    | (true, d) => simp [copyEntries, copyChild, hc, FEntries.cons_append, FEntries.nil_append]
    | (false, d) => simp [copyEntries, copyChild, hc, FEntries.cons_append, FEntries.nil_append]

theorem FEntries.append_assoc : ∀ xs ys zs : FEntries, xs ++ ys ++ zs = xs ++ (ys ++ zs)
  | .nil, _, _ => rfl
  | .cons a n xs, ys, zs => by
    simp only [FEntries.cons_append, FEntries.append_assoc xs ys zs]

/-- Counterexample for C1 (claim as stated).  Source directory with two file
children: "a" is unreadable so its copy fails, "b" is perfectly copyable.
The claim predicts that copying continues with the sibling "b" and the
failure lands in a failures list; in fact `copyDirectoryRecursive` `break`s:
the produced destination directory is empty — "b" was never copied — and the
outcome is the single boolean `false` (the function's return type has no
failures list at all). -/
theorem copy_abandons_sibling_after_child_failure :
    copyNode (.dir 493 true
        (.cons "a" (.file [1] 420 false) (.cons "b" (.file [2] 420 true) .nil)))
      = (false, .dir 493 true .nil)
    ∧ lookupN (copyNode (.dir 493 true
        (.cons "a" (.file [1] 420 false) (.cons "b" (.file [2] 420 true) .nil)))).2
        ["b"] = none
    ∧ lookupN (.dir 493 true
        (.cons "a" (.file [1] 420 false) (.cons "b" (.file [2] 420 true) .nil)))
        ["b"] = some (.file [2] 420 true) := by decide

/-- C1 (amended).  In `copyDirectoryRecursive`, when copying one child entry
fails, the whole directory copy aborts: the loop `break`s, so the destination
receives exactly the copies of the children preceding the failing one (plus
the failing child's partial destination directory, when that child was a
subdirectory), the siblings after the failure are never attempted, and the
only failure report is the overall boolean result — there is no per-child
failures list. -/
theorem copy_aborts_on_child_failure :
    ∀ es₁ : FEntries, ∀ (a : String) (c : FNode) (es₂ : FEntries),
      allCopyOk es₁ = true → (copyChild a c).1 = false →
      copyEntries (es₁ ++ .cons a c es₂) = (false, (copyEntries es₁).2 ++ (copyChild a c).2)
  | .nil, a, c, es₂, _, hc => by
    rw [FEntries.nil_append, copyEntries_cons, if_neg (by simp [hc])]
    simp [copyEntries, FEntries.nil_append]
  | .cons b n rest, a, c, es₂, hall, hc => by
    have hb : (copyChild b n).1 = true := by
      have := hall; simp [allCopyOk, Bool.and_eq_true] at this; exact this.1
    have hrest : allCopyOk rest = true := by
      have := hall; simp [allCopyOk, Bool.and_eq_true] at this; exact this.2
    have ih := copy_aborts_on_child_failure rest a c es₂ hrest hc
    rw [FEntries.cons_append, copyEntries_cons, if_pos (by simp [hb]), ih,
      copyEntries_cons, if_pos (by simp [hb])]
    simp [FEntries.append_assoc]

/-- Witness for the amended C1: one successfully copied sibling before the
failing child, one abandoned sibling after it. -/
theorem copy_aborts_on_child_failure_witness :
    copyEntries
        ((FEntries.cons "x" (.file [9] 420 true) .nil)
          ++ .cons "a" (.file [1] 420 false) (.cons "b" (.file [2] 420 true) .nil))
      = (false,
          (copyEntries (.cons "x" (.file [9] 420 true) .nil)).2
            ++ (copyChild "a" (.file [1] 420 false)).2) :=
  copy_aborts_on_child_failure (.cons "x" (.file [9] 420 true) .nil) "a"
    (.file [1] 420 false) (.cons "b" (.file [2] 420 true) .nil) (by decide) (by decide)

/-!  ## Recursive delete — src/File_Explorer.cpp, `deleteDirectoryRecursive`
(425–468)

The function opens the directory (failing on an unreadable directory or a
non-directory), walks the entries — recursing into subdirectories, `unlink`ing
files — with an early `break` on the first child failure, and finally, only
when every child was removed, `rmdir`s the directory itself.

The model returns the success flag, the residual node (`none` when the node
was removed entirely), and the trace of successfully removed paths in removal
order.  `unlink(q)` succeeds exactly when the environment oracle `uok q` says
so (whether a file may be unlinked is decided by its parent directory's
permissions, not by the file itself); `rmdir` of the emptied directory is
modelled as succeeding. -/

mutual

def deleteDirectoryRecursive (uok : List String → Bool) (p : List String) :
    FNode → Bool × Option FNode × List (List String)
  | .file c pm ok => (false, some (.file c pm ok), [])
  | .dir pm ok cs =>
    if ok then
      match deleteEntries uok p cs with
      | (true, _, tr) => (true, none, tr ++ [p])
      | (false, cs', tr) => (false, some (.dir pm ok cs'), tr)
    else (false, some (.dir pm ok cs), [])

/-- The `readdir` loop: `unlink` file children, recurse into directory
children, `break` on the first failure (remaining siblings untouched). -/
def deleteEntries (uok : List String → Bool) (p : List String) :
    FEntries → Bool × FEntries × List (List String)
  | .nil => (true, .nil, [])
  | .cons a (.file c pm ok) rest =>
    if uok (p ++ [a]) then
      match deleteEntries uok p rest with
      | (s, rest', tr') => (s, rest', (p ++ [a]) :: tr')
    else (false, .cons a (.file c pm ok) rest, [])
  | .cons a (.dir dpm dok dcs) rest =>
    match deleteDirectoryRecursive uok (p ++ [a]) (.dir dpm dok dcs) with
    | (true, _, tr) =>
      match deleteEntries uok p rest with
      | (s, rest', tr') => (s, rest', tr ++ tr')
    | (false, n', tr) => (false, .cons a (n'.getD (.dir dpm dok dcs)) rest, tr)

end

/-- One iteration of the delete loop in isolation: success flag, residual
child node (meaningful on failure), and removal trace. -/
def deleteChild (uok : List String → Bool) (p : List String) (a : String) :
    FNode → Bool × FNode × List (List String)
  | .file c pm ok =>
    if uok (p ++ [a]) then (true, .file c pm ok, [p ++ [a]])
    else (false, .file c pm ok, [])
  | .dir dpm dok dcs =>
    match deleteDirectoryRecursive uok (p ++ [a]) (.dir dpm dok dcs) with
    | (s, n', tr) => (s, n'.getD (.dir dpm dok dcs), tr)

/-- Every child in the list is fully removable. -/
def allDeleteOk (uok : List String → Bool) (p : List String) : FEntries → Bool
  | .nil => true
  | .cons a n rest => (deleteChild uok p a n).1 && allDeleteOk uok p rest

/-- The concatenated removal trace of a fully removable child list. -/
def deleteTraceOf (uok : List String → Bool) (p : List String) : FEntries → List (List String)
  | .nil => []
  | .cons a n rest => (deleteChild uok p a n).2.2 ++ deleteTraceOf uok p rest

theorem deleteEntries_cons (uok : List String → Bool) (p : List String) (a : String)
    (n : FNode) (rest : FEntries) :
    deleteEntries uok p (.cons a n rest)
      = if (deleteChild uok p a n).1
          then ((deleteEntries uok p rest).1, (deleteEntries uok p rest).2.1,
                (deleteChild uok p a n).2.2 ++ (deleteEntries uok p rest).2.2)
          else (false, .cons a (deleteChild uok p a n).2.1 rest,
                (deleteChild uok p a n).2.2) := by
  match n with
  | .file c pm ok =>
    by_cases h : uok (p ++ [a]) = true
    · simp [deleteEntries, deleteChild, h]
    · simp at h
      simp [deleteEntries, deleteChild, h]
  | .dir dpm dok dcs =>
    match hc : deleteDirectoryRecursive uok (p ++ [a]) (.dir dpm dok dcs) with
    | (true, n', tr) => simp [deleteEntries, deleteChild, hc]
    | (false, n', tr) => simp [deleteEntries, deleteChild, hc]

theorem pathLe_refl : ∀ p : List String, pathLe p p = true
  | [] => rfl
  | a :: as => by simp [pathLe, pathLe_refl as]

theorem pathLe_append_right : ∀ p q : List String, pathLe p (p ++ q) = true
  | [], _ => rfl
  | a :: as, q => by simp [pathLe, pathLe_append_right as q]

theorem pathLe_trans : ∀ {a b c : List String},
    pathLe a b = true → pathLe b c = true → pathLe a c = true
  | [], _, _, _, _ => rfl
  | _ :: _, [], _, h, _ => by simp [pathLe] at h
  | _ :: _, _ :: _, [], _, h => by simp [pathLe] at h
  | x :: xs, y :: ys, z :: zs, h1, h2 => by
    simp only [pathLe, Bool.and_eq_true, beq_iff_eq] at h1 h2 ⊢
    exact ⟨h1.1.trans h2.1, pathLe_trans h1.2 h2.2⟩

theorem pathLe_length : ∀ {a b : List String}, pathLe a b = true → a.length ≤ b.length
  | [], _, _ => by simp
  | _ :: _, [], h => by simp [pathLe] at h
  | x :: xs, y :: ys, h => by
    simp only [pathLe, Bool.and_eq_true] at h
    simpa [List.length_cons] using pathLe_length h.2

theorem pathLe_antisymm_len : ∀ {a b c : List String},
    pathLe a c = true → pathLe b c = true → a.length = b.length → a = b
  | [], [], _, _, _, _ => rfl
  | [], _ :: _, _, _, _, h => by simp at h
  | _ :: _, [], _, _, _, h => by simp at h
  | _ :: _, _ :: _, [], h1, _, _ => by simp [pathLe] at h1
  | x :: xs, y :: ys, z :: zs, h1, h2, hl => by
    simp only [pathLe, Bool.and_eq_true, beq_iff_eq] at h1 h2
    simp only [List.length_cons, Nat.succ_inj] at hl
    rw [h1.1, h2.1, pathLe_antisymm_len h1.2 h2.2 hl]

/-- Paths below two distinct children of the same directory are unrelated. -/
theorem pathLe_branch_false {p : List String} {a b : String} {x y : List String}
    (hab : a ≠ b) (hx : pathLe (p ++ [a]) x = true) (hy : pathLe (p ++ [b]) y = true) :
    pathLe x y = false := by
  refine Bool.eq_false_iff.mpr fun hxy => ?_
  have h1 : pathLe (p ++ [a]) y = true := pathLe_trans hx hxy
  have heq : p ++ [a] = p ++ [b] := pathLe_antisymm_len h1 hy (by simp)
  exact hab (by simpa using heq)

/-- A path strictly below `p` is never an ancestor of `p`. -/
theorem pathLe_extend_not_le {p : List String} {a : String} {x : List String}
    (hx : pathLe (p ++ [a]) x = true) : pathLe x p = false := by
  refine Bool.eq_false_iff.mpr fun hxp => ?_
  have h1 : (p ++ [a]).length ≤ x.length := pathLe_length hx
  have h2 : x.length ≤ p.length := pathLe_length hxp
  simp only [List.length_append, List.length_cons, List.length_nil] at h1
  omega

mutual

/-- A well-formed tree: sibling names are distinct at every level, as in any
real directory. -/
def wfN : FNode → Bool
  | .file _ _ _ => true
  | .dir _ _ cs => wfE cs

def wfE : FEntries → Bool
  | .nil => true
  | .cons a n rest => decide (a ∉ rest.names) && wfN n && wfE rest

end

mutual

/-- Every path removed while deleting the subtree at `p` lies at or below `p`. -/
theorem deleteDR_trace_le : ∀ (uok : List String → Bool) (p : List String) (n : FNode)
      (q : List String),
    q ∈ (deleteDirectoryRecursive uok p n).2.2 → pathLe p q = true
  | uok, p, .file c pm ok, q, h => by simp [deleteDirectoryRecursive] at h
  | uok, p, .dir pm ok cs, q, h => by
    by_cases hok : ok = true
    · rcases hde : deleteEntries uok p cs with ⟨s, cs', tr⟩
      have hmem : q ∈ tr ∨ q = p := by
        cases s
        · simp [deleteDirectoryRecursive, hok, hde] at h
          exact Or.inl h
        · simp [deleteDirectoryRecursive, hok, hde] at h
          rcases h with h | h
          · exact Or.inl h
          · exact Or.inr h
      rcases hmem with h' | h'
      · obtain ⟨a, _, ha⟩ := deleteEntries_trace_le uok p cs q (by rw [hde]; exact h')
        exact pathLe_trans (pathLe_append_right p [a]) ha
      · rw [h']; exact pathLe_refl p
    · simp only [Bool.not_eq_true] at hok
      simp [deleteDirectoryRecursive, hok] at h

/-- Every path removed by the child loop lies below one of the children. -/
theorem deleteEntries_trace_le : ∀ (uok : List String → Bool) (p : List String)
      (cs : FEntries) (q : List String),
    q ∈ (deleteEntries uok p cs).2.2 →
      ∃ a, a ∈ cs.names ∧ pathLe (p ++ [a]) q = true
  | uok, p, .nil, q, h => by simp [deleteEntries] at h
  | uok, p, .cons a (.file c pm ok) rest, q, h => by
    by_cases hk : uok (p ++ [a]) = true
    · rcases hr : deleteEntries uok p rest with ⟨s, rest', tr'⟩
      simp [deleteEntries, hk, hr] at h
      rcases h with h | h
      · exact ⟨a, by simp [FEntries.names], by rw [h]; exact pathLe_refl _⟩
      · obtain ⟨b, hb, hble⟩ := deleteEntries_trace_le uok p rest q (by rw [hr]; exact h)
        exact ⟨b, by simp [FEntries.names, hb], hble⟩
    · simp only [Bool.not_eq_true] at hk
      simp [deleteEntries, hk] at h
  | uok, p, .cons a (.dir dpm dok dcs) rest, q, h => by
    rcases hc : deleteDirectoryRecursive uok (p ++ [a]) (.dir dpm dok dcs) with ⟨s, n', tr⟩
    have hsub : q ∈ tr → ∃ b, b ∈ (FEntries.cons a (.dir dpm dok dcs) rest).names
        ∧ pathLe (p ++ [b]) q = true := by
      intro hq
      exact ⟨a, by simp [FEntries.names],
        deleteDR_trace_le uok (p ++ [a]) (.dir dpm dok dcs) q (by rw [hc]; exact hq)⟩
    cases s
    · simp [deleteEntries, hc] at h
      exact hsub h
    · rcases hr : deleteEntries uok p rest with ⟨s', rest', tr'⟩
      simp [deleteEntries, hc, hr] at h
      rcases h with h | h
      · exact hsub h
      · obtain ⟨b, hb, hble⟩ := deleteEntries_trace_le uok p rest q (by rw [hr]; exact h)
        exact ⟨b, by simp [FEntries.names, hb], hble⟩

end

mutual

/-- Depth-first removal order: while deleting a well-formed subtree, no
removed path is ever an ancestor (or equal) of a later removed path — every
directory goes only after all of its removed descendants. -/
theorem deleteDR_trace_pairwise : ∀ (uok : List String → Bool) (p : List String) (n : FNode),
    wfN n = true →
    ((deleteDirectoryRecursive uok p n).2.2).Pairwise (fun x y => pathLe x y = false)
  | uok, p, .file c pm ok, _ => by simp [deleteDirectoryRecursive]
  | uok, p, .dir pm ok cs, h => by
    have hcs : wfE cs = true := by simpa [wfN] using h
    by_cases hok : ok = true
    · rcases hde : deleteEntries uok p cs with ⟨s, cs', tr⟩
      have htr : tr.Pairwise (fun x y => pathLe x y = false) := by
        have := deleteEntries_trace_pairwise uok p cs hcs
        rwa [hde] at this
      cases s
      · simpa [deleteDirectoryRecursive, hok, hde] using htr
      · simp only [deleteDirectoryRecursive, hok, hde, if_true]
        rw [List.pairwise_append]
        refine ⟨htr, by simp, fun x hx y hy => ?_⟩
        simp only [List.mem_singleton] at hy
        rw [hy]
        obtain ⟨a, _, ha⟩ := deleteEntries_trace_le uok p cs x (by rw [hde]; exact hx)
        exact pathLe_extend_not_le ha
    · simp only [Bool.not_eq_true] at hok
      simp [deleteDirectoryRecursive, hok]

theorem deleteEntries_trace_pairwise : ∀ (uok : List String → Bool) (p : List String)
      (cs : FEntries), wfE cs = true →
    ((deleteEntries uok p cs).2.2).Pairwise (fun x y => pathLe x y = false)
  | uok, p, .nil, _ => by simp [deleteEntries]
  | uok, p, .cons a n rest, h => by
    have hna : a ∉ rest.names := by
      have := h; simp [wfE, Bool.and_eq_true] at this; exact this.1.1
    have hn : wfN n = true := by
      have := h; simp [wfE, Bool.and_eq_true] at this; exact this.1.2
    have hrest : wfE rest = true := by
      have := h; simp [wfE, Bool.and_eq_true] at this; exact this.2
    have hcross : ∀ x, pathLe (p ++ [a]) x = true →
        ∀ y ∈ (deleteEntries uok p rest).2.2, pathLe x y = false := by
      intro x hx y hy
      obtain ⟨b, hb, hble⟩ := deleteEntries_trace_le uok p rest y hy
      exact pathLe_branch_false (fun hab => hna (by rw [hab]; exact hb)) hx hble
    match n, hn with
    | .file c pm ok, _ =>
      by_cases hk : uok (p ++ [a]) = true
      · rcases hr : deleteEntries uok p rest with ⟨s, rest', tr'⟩
        have htr' : tr'.Pairwise (fun x y => pathLe x y = false) := by
          have := deleteEntries_trace_pairwise uok p rest hrest
          rwa [hr] at this
        simp only [deleteEntries, hk, if_true, hr]
        refine List.Pairwise.cons (fun y hy => ?_) htr'
        exact hcross _ (pathLe_refl _) y (by rw [hr]; exact hy)
      · simp only [Bool.not_eq_true] at hk
        simp [deleteEntries, hk]
    | .dir dpm dok dcs, hn' =>
      rcases hc : deleteDirectoryRecursive uok (p ++ [a]) (.dir dpm dok dcs) with ⟨s, n', tr⟩
      have htr : tr.Pairwise (fun x y => pathLe x y = false) := by
        have := deleteDR_trace_pairwise uok (p ++ [a]) (.dir dpm dok dcs) hn'
        rwa [hc] at this
      cases s
      · simpa [deleteEntries, hc] using htr
      · rcases hr : deleteEntries uok p rest with ⟨s', rest', tr'⟩
        have htr' : tr'.Pairwise (fun x y => pathLe x y = false) := by
          have := deleteEntries_trace_pairwise uok p rest hrest
          rwa [hr] at this
        simp only [deleteEntries, hc, hr]
        rw [List.pairwise_append]
        refine ⟨htr, htr', fun x hx y hy => ?_⟩
        have hxle : pathLe (p ++ [a]) x = true :=
          deleteDR_trace_le uok (p ++ [a]) (.dir dpm dok dcs) x (by rw [hc]; exact hx)
        exact hcross x hxle y (by rw [hr]; exact hy)

end

theorem deleteEntries_fail_append (uok : List String → Bool) (p : List String) :
    ∀ (es₁ : FEntries) (a : String) (c : FNode) (es₂ : FEntries),
      allDeleteOk uok p es₁ = true → (deleteChild uok p a c).1 = false →
      deleteEntries uok p (es₁ ++ .cons a c es₂)
        = (false, .cons a (deleteChild uok p a c).2.1 es₂,
           deleteTraceOf uok p es₁ ++ (deleteChild uok p a c).2.2)
  | .nil, a, c, es₂, _, hc => by
    rw [FEntries.nil_append, deleteEntries_cons, if_neg (by simp [hc])]
    simp [deleteTraceOf]
  | .cons b n rest, a, c, es₂, hall, hc => by
    have hb : (deleteChild uok p b n).1 = true := by
      have := hall; simp [allDeleteOk, Bool.and_eq_true] at this; exact this.1
    have hrest : allDeleteOk uok p rest = true := by
      have := hall; simp [allDeleteOk, Bool.and_eq_true] at this; exact this.2
    have ih := deleteEntries_fail_append uok p rest a c es₂ hrest hc
    rw [FEntries.cons_append, deleteEntries_cons, if_pos (by simp [hb]), ih]
    simp [deleteTraceOf, List.append_assoc]

/-- C6.  Authorized recursive deletion, three guarantees in one statement.
(1) Depth-first order: over any well-formed tree, no removed path is an
ancestor of (or equal to) a later removed path — every directory is removed
only after all of its removed descendants, children before their containing
directory.  (2) The deleted directory itself goes last: on success the final
removal is the directory's own path.  (3) Early abort: if deleting the child
`a` fails after the fully-removable children `es₁`, the loop `break`s — the
outcome is the failure boolean (surfaced to the caller as the
`PartialDeleteFailure` message), the siblings `es₂` after the failure are
never attempted and survive untouched, and the directory itself is left in
place (holding the failing child's residue and the untouched siblings). -/
theorem delete_depth_first_and_aborts_on_failure :
    (∀ (uok : List String → Bool) (p : List String) (n : FNode), wfN n = true →
        ((deleteDirectoryRecursive uok p n).2.2).Pairwise (fun x y => pathLe x y = false))
  ∧ (∀ (uok : List String → Bool) (p : List String) (n : FNode),
        (deleteDirectoryRecursive uok p n).1 = true →
        ((deleteDirectoryRecursive uok p n).2.2).getLast? = some p)
  ∧ (∀ (uok : List String → Bool) (p : List String) (pm : Nat) (es₁ : FEntries)
        (a : String) (c : FNode) (es₂ : FEntries),
        allDeleteOk uok p es₁ = true → (deleteChild uok p a c).1 = false →
        deleteDirectoryRecursive uok p (.dir pm true (es₁ ++ .cons a c es₂))
          = (false, some (.dir pm true (.cons a (deleteChild uok p a c).2.1 es₂)),
             deleteTraceOf uok p es₁ ++ (deleteChild uok p a c).2.2)) := by
  refine ⟨deleteDR_trace_pairwise, fun uok p n h => ?_,
    fun uok p pm es₁ a c es₂ h1 h2 => ?_⟩
  · cases n with
    | file c pm ok => simp [deleteDirectoryRecursive] at h
    | dir pm ok cs =>
      by_cases hok : ok = true
      · rcases hde : deleteEntries uok p cs with ⟨s, cs', tr⟩
        cases s
        · simp [deleteDirectoryRecursive, hok, hde] at h
        · simp [deleteDirectoryRecursive, hok, hde, List.getLast?_concat]
      · simp only [Bool.not_eq_true] at hok
        simp [deleteDirectoryRecursive, hok] at h
  · have he := deleteEntries_fail_append uok p es₁ a c es₂ h1 h2
    simp [deleteDirectoryRecursive, he]

/-- Witness for C6 at a concrete tree: `r/d` holds a removable file "f1", an
unremovable file "f2", and an untouched sibling "f3". -/
theorem delete_depth_first_and_aborts_on_failure_witness :
    ((deleteDirectoryRecursive (fun _ => true) ["r"]
        (.dir 493 true (.cons "d" (.dir 493 true (.cons "g" (.file [3] 420 true) .nil))
          .nil))).2.2).Pairwise (fun x y => pathLe x y = false)
  ∧ ((deleteDirectoryRecursive (fun _ => true) ["r"]
        (.dir 493 true (.cons "d" (.dir 493 true (.cons "g" (.file [3] 420 true) .nil))
          .nil))).2.2).getLast? = some ["r"]
  ∧ deleteDirectoryRecursive (fun q => decide (q ≠ ["r", "f2"])) ["r"]
        (.dir 493 true
          ((FEntries.cons "f1" (.file [1] 420 true) .nil)
            ++ .cons "f2" (.file [2] 420 true) (.cons "f3" (.file [3] 420 true) .nil)))
      = (false,
         some (.dir 493 true
           (.cons "f2"
             (deleteChild (fun q => decide (q ≠ ["r", "f2"])) ["r"] "f2"
               (.file [2] 420 true)).2.1
             (.cons "f3" (.file [3] 420 true) .nil))),
         deleteTraceOf (fun q => decide (q ≠ ["r", "f2"])) ["r"]
             (.cons "f1" (.file [1] 420 true) .nil)
           ++ (deleteChild (fun q => decide (q ≠ ["r", "f2"])) ["r"] "f2"
               (.file [2] 420 true)).2.2) :=
  ⟨delete_depth_first_and_aborts_on_failure.1 (fun _ => true) ["r"] _ (by decide),
   delete_depth_first_and_aborts_on_failure.2.1 (fun _ => true) ["r"] _ (by decide),
   delete_depth_first_and_aborts_on_failure.2.2 (fun q => decide (q ≠ ["r", "f2"])) ["r"]
     493 (.cons "f1" (.file [1] 420 true) .nil) "f2" (.file [2] 420 true)
     (.cons "f3" (.file [3] 420 true) .nil) (by decide) (by decide)⟩

theorem find?_setEntry_eq : ∀ (cs : FEntries) (a : String) (m : FNode),
    (cs.setEntry a m).find? a = some m
  | .nil, a, m => by simp [FEntries.setEntry, FEntries.find?]
  | .cons b n rest, a, m => by
    by_cases h : b = a
    · simp [FEntries.setEntry, FEntries.find?, h]
    · simp [FEntries.setEntry, FEntries.find?, h, find?_setEntry_eq rest a m]

theorem find?_setEntry_ne : ∀ (cs : FEntries) (a b : String) (m : FNode), b ≠ a →
    (cs.setEntry a m).find? b = cs.find? b
  | .nil, a, b, m, h => by simp [FEntries.setEntry, FEntries.find?, Ne.symm h]
  | .cons x n rest, a, b, m, h => by
    by_cases hx : x = a
    · simp [FEntries.setEntry, FEntries.find?, hx, Ne.symm h]
    · by_cases hb : x = b
      · simp [FEntries.setEntry, FEntries.find?, hx, hb, h]
      · simp [FEntries.setEntry, FEntries.find?, hx, hb, find?_setEntry_ne rest a b m h]

theorem find?_replace_eq : ∀ (cs : FEntries) (a : String) (m : FNode) (c : FNode),
    cs.find? a = some c → (cs.replace a m).find? a = some m
  | .nil, a, m, c, h => by simp [FEntries.find?] at h
  | .cons b n rest, a, m, c, h => by
    by_cases hb : b = a
    · simp [FEntries.replace, FEntries.find?, hb]
    · simp only [FEntries.find?, if_neg hb] at h
      simp [FEntries.replace, FEntries.find?, hb, find?_replace_eq rest a m c h]

theorem find?_replace_ne : ∀ (cs : FEntries) (a b : String) (m : FNode), b ≠ a →
    (cs.replace a m).find? b = cs.find? b
  | .nil, a, b, m, h => by simp [FEntries.replace]
  | .cons x n rest, a, b, m, h => by
    by_cases hx : x = a
    · simp [FEntries.replace, FEntries.find?, hx, Ne.symm h]
    · by_cases hb : x = b
      · simp [FEntries.replace, FEntries.find?, hx, hb, h]
      · simp [FEntries.replace, FEntries.find?, hx, hb, find?_replace_ne rest a b m h]

theorem find?_eraseEntry_ne : ∀ (cs : FEntries) (a b : String), b ≠ a →
    (cs.eraseEntry a).find? b = cs.find? b
  | .nil, a, b, h => by simp [FEntries.eraseEntry]
  | .cons x n rest, a, b, h => by
    by_cases hx : x = a
    · simp [FEntries.eraseEntry, FEntries.find?, hx, Ne.symm h]
    · by_cases hb : x = b
      · simp [FEntries.eraseEntry, FEntries.find?, hx, hb, h]
      · simp [FEntries.eraseEntry, FEntries.find?, hx, hb, find?_eraseEntry_ne rest a b h]

/-- Writing at `q` is invisible to a lookup at any path `p` unrelated to `q`
(neither is an ancestor of the other). -/
theorem lookupN_writeAt_frame : ∀ (q : List String) (fs m : FNode) (p : List String),
    pathLe q p = false → pathLe p q = false →
    lookupN (writeAt fs q m) p = lookupN fs p
  | [], fs, m, p, hqp, _ => by simp [pathLe] at hqp
  | a :: q', fs, m, [], _, hpq => by simp [pathLe] at hpq
  | a :: q', .file c pm ok, m, b :: p', _, _ => by simp [writeAt]
  | a :: q', .dir pm ok cs, m, b :: p', hqp, hpq => by
    by_cases hab : a = b
    · subst hab
      simp only [pathLe, beq_self_eq_true, Bool.true_and] at hqp hpq
      match q', hqp, hpq with
      | [], hqp, hpq => simp [pathLe] at hqp
      | x :: q'', hqp, hpq =>
        match p', hpq with
        | [], hpq => simp [pathLe] at hpq
        | y :: p'', hpq =>
          match hf : cs.find? a with
          | some child =>
            simp only [writeAt, hf, lookupN]
            rw [find?_replace_eq cs a (writeAt child (x :: q'') m) child hf]
            exact lookupN_writeAt_frame (x :: q'') child m (y :: p'') hqp hpq
          | none => simp [writeAt, hf, lookupN]
    · match q' with
      | [] =>
        simp only [writeAt, lookupN]
        rw [find?_setEntry_ne cs a b m (Ne.symm hab)]
      | x :: q'' =>
        match hf : cs.find? a with
        | some child =>
          simp only [writeAt, hf, lookupN]
          rw [find?_replace_ne cs a b _ (Ne.symm hab)]
        | none => simp [writeAt, hf]

/-- Erasing at `q` is invisible to a lookup at any unrelated path `p`. -/
theorem lookupN_eraseAt_frame : ∀ (q : List String) (fs : FNode) (p : List String),
    pathLe q p = false → pathLe p q = false →
    lookupN (eraseAt fs q) p = lookupN fs p
  | [], fs, p, hqp, _ => by simp [pathLe] at hqp
  | a :: q', fs, [], _, hpq => by simp [pathLe] at hpq
  | a :: q', .file c pm ok, b :: p', _, _ => by simp [eraseAt]
  | a :: q', .dir pm ok cs, b :: p', hqp, hpq => by
    by_cases hab : a = b
    · subst hab
      simp only [pathLe, beq_self_eq_true, Bool.true_and] at hqp hpq
      match q', hqp, hpq with
      | [], hqp, hpq => simp [pathLe] at hqp
      | x :: q'', hqp, hpq =>
        match p', hpq with
        | [], hpq => simp [pathLe] at hpq
        | y :: p'', hpq =>
          match hf : cs.find? a with
          | some child =>
            simp only [eraseAt, hf, lookupN]
            rw [find?_replace_eq cs a (eraseAt child (x :: q'')) child hf]
            exact lookupN_eraseAt_frame (x :: q'') child (y :: p'') hqp hpq
          | none => simp [eraseAt, hf, lookupN]
    · match q' with
      | [] =>
        simp only [eraseAt, lookupN]
        rw [find?_eraseEntry_ne cs a b (Ne.symm hab)]
      | x :: q'' =>
        match hf : cs.find? a with
        | some child =>
          simp only [eraseAt, hf, lookupN]
          rw [find?_replace_ne cs a b _ (Ne.symm hab)]
        | none => simp [eraseAt, hf]

/-- Writing at an existing path lands there: the written node is then found. -/
theorem lookupN_writeAt_self : ∀ (q : List String) (fs m x : FNode),
    lookupN fs q = some x → lookupN (writeAt fs q m) q = some m
  | [], fs, m, x, _ => by cases fs <;> simp [writeAt, lookupN]
  | a :: q', .file c pm ok, m, x, h => by simp [lookupN] at h
  | a :: q', .dir pm ok cs, m, x, h => by
    match hf : cs.find? a with
    | some child =>
      match q' with
      | [] => simp [writeAt, lookupN, find?_setEntry_eq]
      | y :: q'' =>
        simp only [lookupN, hf] at h
        simp only [writeAt, hf, lookupN]
        rw [find?_replace_eq cs a (writeAt child (y :: q'') m) child hf]
        exact lookupN_writeAt_self (y :: q'') child m x h
    | none => simp [lookupN, hf] at h

/-!  ## Path-level operations

`copyFileInternal` (File_Explorer.cpp 313–336): `ifstream src` fails when the
source is missing, a directory, or unreadable; `ofstream dest` fails when the
destination's parent directory is missing or the destination is an existing
directory; then the bytes are streamed and `chmod` copies the source's
permission bits onto the destination.

`copyDirectoryRecursive` (path level, File_Explorer.cpp 339–387): `stat` the
source, `mkdir` the destination (fails when it already exists or its parent is
missing), then run the child walk (`copyNode`).  The walk is taken over a
snapshot of the source subtree, faithful whenever source and destination do
not overlap — the only situation the claims concern. -/

def copyFileInternal (fs : FNode) (srcPath dstPath : List String) : Bool × FNode :=
  match lookupN fs srcPath with
  | some (.file c pm ok) =>
    if ok then
      if isDirAt fs dstPath.dropLast && !(isDirAt fs dstPath) then
        (true, writeAt fs dstPath (.file c pm true))
      else (false, fs)
    else (false, fs)
  | _ => (false, fs)

def copyDirectoryRecursiveAt (fs : FNode) (srcPath dstPath : List String) : Bool × FNode :=
  match lookupN fs srcPath with
  | none => (false, fs)
  | some n =>
    if existsAt fs dstPath then (false, fs)
    else if isDirAt fs dstPath.dropLast then
      match copyNode n with
      | (s, d) => (s, writeAt fs dstPath d)
    else (false, fs)

/-- Outcomes of `deleteItem` (File_Explorer.cpp 274–310), one per printed
message; `confirmationRequired` is the "Operation cancelled." path taken when
the user does not answer "yes" to the recursive-delete prompt. -/
inductive DeleteItemOutcome where
  | notFound
  | deletedFile
  | fileDeleteFailed
  | deletedEmptyDir
  | confirmationRequired
  | deletedRecursively
  | recursiveDeleteFailed
deriving DecidableEq

/-- `deleteItem`: `stat`; directories try `rmdir` first (succeeds exactly on
an empty directory, no mutation otherwise), then ask for confirmation before
`deleteDirectoryRecursive`; files are `unlink`ed directly. -/
def deleteItem (uok : List String → Bool) (fs : FNode) (path : List String)
    (confirmed : Bool) : DeleteItemOutcome × FNode :=
  match lookupN fs path with
  | none => (.notFound, fs)
  | some (.dir pm ok cs) =>
    match cs with
    | .nil => (.deletedEmptyDir, eraseAt fs path)
    | .cons b n rest =>
      if confirmed then
        match deleteDirectoryRecursive uok path (.dir pm ok (.cons b n rest)) with
        | (true, _, _) => (.deletedRecursively, eraseAt fs path)
        | (false, residual, _) =>
          (.recursiveDeleteFailed,
           writeAt fs path (residual.getD (.dir pm ok (.cons b n rest))))
      else (.confirmationRequired, fs)
  | some (.file c pm ok) =>
    if uok path then (.deletedFile, eraseAt fs path) else (.fileDeleteFailed, fs)

/-- Outcomes of `moveFile` (File_Explorer.cpp 471–547), one per printed
message. -/
inductive MoveOutcome where
  | sourceNotFound
  | destEntryExists
  | destIsFile
  | renamed
  | movedCopyDelete
  | copiedButSourceRetained
  | moveFailed
deriving DecidableEq

/-- Destination resolution of `moveFile` (lines 488–510): an existing
destination directory redirects to `dst/basename(src)` and rejects when that
entry already exists; an existing destination file is rejected outright. -/
def resolveDest (fs : FNode) (srcPath dstPath : List String) :
    List String × Option MoveOutcome :=
  match lookupN fs dstPath with
  | some (.dir _ _ _) =>
    let resolved := dstPath ++ [baseNameOf srcPath]
    if existsAt fs resolved then (resolved, some .destEntryExists)
    else (resolved, none)
  | some (.file _ _ _) => (dstPath, some .destIsFile)
  | none => (dstPath, none)

/-- `moveFile`: `stat` the source, resolve the destination, try `rename`
first (`renameOk` abstracts the same-filesystem condition; a rename also
needs the destination's parent directory to exist), and only on rename
failure fall back to copy-then-delete: recursive copy plus recursive delete
for directories, `copyFileInternal` plus `unlink` for files.  A failed
delete-after-copy yields the "Copied but could not delete source" outcome. -/
def moveFile (uok : List String → Bool) (fs : FNode) (renameOk : Bool)
    (srcPath dstPath : List String) : MoveOutcome × FNode :=
  match lookupN fs srcPath with
  | none => (.sourceNotFound, fs)
  | some srcNode =>
    match resolveDest fs srcPath dstPath with
    | (_, some o) => (o, fs)
    | (dstR, none) =>
      if renameOk && isDirAt fs dstR.dropLast then
        (.renamed, writeAt (eraseAt fs srcPath) dstR srcNode)
      else
        match srcNode with
        | .dir dpm dok dcs =>
          match copyDirectoryRecursiveAt fs srcPath dstR with
          | (true, fs₁) =>
            match deleteDirectoryRecursive uok srcPath (.dir dpm dok dcs) with
            | (true, _, _) => (.movedCopyDelete, eraseAt fs₁ srcPath)
            | (false, residual, _) =>
              (.copiedButSourceRetained,
               writeAt fs₁ srcPath (residual.getD (.dir dpm dok dcs)))
          | (false, fs₁) => (.moveFailed, fs₁)
        | .file c pm pok =>
          match copyFileInternal fs srcPath dstR with
          | (true, fs₁) =>
            if uok srcPath then (.movedCopyDelete, eraseAt fs₁ srcPath)
            else (.copiedButSourceRetained, fs₁)
          | (false, fs₁) => (.moveFailed, fs₁)

/-- Outcomes of `renameItem` (File_Explorer.cpp 550–576). -/
inductive RenameOutcome where
  | notFound
  | alreadyExists
  | renamed
  | renameFailed
deriving DecidableEq

/-- `renameItem`: `stat` the old path, then `stat` the new path and reject
when something already bears the new name, and only then call `::rename`.
The middle component records whether `::rename` was actually invoked. -/
def renameItem (fs : FNode) (renameOk : Bool) (oldPath newPath : List String) :
    RenameOutcome × Bool × FNode :=
  match lookupN fs oldPath with
  | none => (.notFound, false, fs)
  | some n =>
    match lookupN fs newPath with
    | some _ => (.alreadyExists, false, fs)
    | none =>
      if renameOk && isDirAt fs newPath.dropLast then
        (.renamed, true, writeAt (eraseAt fs oldPath) newPath n)
      else (.renameFailed, true, fs)

/-- C5.  `deleteItem` on a non-empty directory without confirmation: `rmdir`
fails (the directory is non-empty, nothing is removed), the user declines the
recursive prompt, and the call returns the cancellation outcome
(`ConfirmationRequired`) with the entire store — the directory and all of its
contents included — exactly as before: a no-op that can be repeated
indefinitely with the same result. -/
theorem delete_nonempty_unconfirmed_is_noop (uok : List String → Bool) (fs : FNode)
    (path : List String) (pm : Nat) (ok : Bool) (b : String) (n : FNode) (rest : FEntries)
    (h : lookupN fs path = some (.dir pm ok (.cons b n rest))) :
    deleteItem uok fs path false = (.confirmationRequired, fs)
      ∧ lookupN (deleteItem uok fs path false).2 path
          = some (.dir pm ok (.cons b n rest)) := by
  constructor
  · simp [deleteItem, h]
  · simp [deleteItem, h]

/-- Witness for C5: a directory holding one file, delete not confirmed. -/
theorem delete_nonempty_unconfirmed_is_noop_witness :
    deleteItem (fun _ => true)
        (.dir 493 true (.cons "d" (.dir 493 true (.cons "f" (.file [7] 420 true) .nil)) .nil))
        ["d"] false
      = (.confirmationRequired,
         .dir 493 true (.cons "d" (.dir 493 true (.cons "f" (.file [7] 420 true) .nil)) .nil))
    ∧ lookupN (deleteItem (fun _ => true)
        (.dir 493 true (.cons "d" (.dir 493 true (.cons "f" (.file [7] 420 true) .nil)) .nil))
        ["d"] false).2 ["d"]
      = some (.dir 493 true (.cons "f" (.file [7] 420 true) .nil)) :=
  delete_nonempty_unconfirmed_is_noop (fun _ => true)
    (.dir 493 true (.cons "d" (.dir 493 true (.cons "f" (.file [7] 420 true) .nil)) .nil))
    ["d"] 493 true "f" (.file [7] 420 true) .nil (by decide)

/-- C10.  `renameItem` stats the new name first: when an item with the new
name already exists in the current directory, the call fails with the
already-exists outcome before `::rename` is ever invoked (the middle flag
records whether `::rename` ran), and the store is returned untouched — both
the old item and the existing item are still found unchanged. -/
theorem rename_rejects_existing_target (fs : FNode) (renameOk : Bool)
    (oldPath newPath : List String) (a b : FNode)
    (h1 : lookupN fs oldPath = some a) (h2 : lookupN fs newPath = some b) :
    renameItem fs renameOk oldPath newPath = (.alreadyExists, false, fs)
      ∧ lookupN (renameItem fs renameOk oldPath newPath).2.2 oldPath = some a
      ∧ lookupN (renameItem fs renameOk oldPath newPath).2.2 newPath = some b := by
  refine ⟨?_, ?_, ?_⟩ <;> simp [renameItem, h1, h2]

/-- Witness for C10: renaming "old" to "taken" while "taken" exists. -/
theorem rename_rejects_existing_target_witness :
    renameItem
        (.dir 493 true (.cons "old" (.file [1] 420 true)
          (.cons "taken" (.file [2] 420 true) .nil))) true ["old"] ["taken"]
      = (.alreadyExists, false,
         .dir 493 true (.cons "old" (.file [1] 420 true)
           (.cons "taken" (.file [2] 420 true) .nil)))
    ∧ lookupN (renameItem
        (.dir 493 true (.cons "old" (.file [1] 420 true)
          (.cons "taken" (.file [2] 420 true) .nil))) true ["old"] ["taken"]).2.2 ["old"]
      = some (.file [1] 420 true)
    ∧ lookupN (renameItem
        (.dir 493 true (.cons "old" (.file [1] 420 true)
          (.cons "taken" (.file [2] 420 true) .nil))) true ["old"] ["taken"]).2.2 ["taken"]
      = some (.file [2] 420 true) :=
  rename_rejects_existing_target
    (.dir 493 true (.cons "old" (.file [1] 420 true)
      (.cons "taken" (.file [2] 420 true) .nil))) true ["old"] ["taken"]
    (.file [1] 420 true) (.file [2] 420 true) (by decide) (by decide)

/-- C4.  Destination resolution of `moveFile`.  When the destination exists
and is a directory the effective destination becomes `dst/basename(src)`:
(1) if that resolved entry already exists the call fails with the
already-exists outcome (`DestinationExists`) and the store is returned
untouched; (2) if the destination exists and is a regular file the call fails
with the destination-is-file outcome, again untouched; (3) otherwise the move
really targets `dst ++ [basename src]` — a succeeding rename places the
source node exactly there. -/
theorem move_resolves_destination (uok : List String → Bool) (fs : FNode)
    (srcPath dstPath : List String) (srcNode : FNode)
    (hsrc : lookupN fs srcPath = some srcNode) :
    (∀ dpm dok dcs, lookupN fs dstPath = some (.dir dpm dok dcs) →
        existsAt fs (dstPath ++ [baseNameOf srcPath]) = true →
        ∀ renameOk, moveFile uok fs renameOk srcPath dstPath = (.destEntryExists, fs))
  ∧ (∀ c pm pok, lookupN fs dstPath = some (.file c pm pok) →
        ∀ renameOk, moveFile uok fs renameOk srcPath dstPath = (.destIsFile, fs))
  ∧ (∀ dpm dok dcs, lookupN fs dstPath = some (.dir dpm dok dcs) →
        existsAt fs (dstPath ++ [baseNameOf srcPath]) = false →
        moveFile uok fs true srcPath dstPath
          = (.renamed,
             writeAt (eraseAt fs srcPath) (dstPath ++ [baseNameOf srcPath]) srcNode)) := by
  refine ⟨fun dpm dok dcs hdir hex renameOk => ?_,
    fun c pm pok hfile renameOk => ?_, fun dpm dok dcs hdir hex => ?_⟩
  · simp [moveFile, resolveDest, hsrc, hdir, hex]
  · simp [moveFile, resolveDest, hsrc, hfile]
  · have hpar : isDirAt fs dstPath = true := by simp [isDirAt, hdir]
    simp [moveFile, resolveDest, hsrc, hdir, hex, hpar]

/-- Witness for C4: all three destination-resolution behaviours on concrete
stores: moving "s" into directory "d" that already holds an entry "s"; moving
"s" onto the file "f"; moving "s" into the empty directory "d". -/
theorem move_resolves_destination_witness :
    moveFile (fun _ => true)
        (.dir 493 true (.cons "s" (.file [1] 420 true)
          (.cons "d" (.dir 493 true (.cons "s" (.file [2] 420 true) .nil)) .nil)))
        true ["s"] ["d"]
      = (.destEntryExists,
         .dir 493 true (.cons "s" (.file [1] 420 true)
           (.cons "d" (.dir 493 true (.cons "s" (.file [2] 420 true) .nil)) .nil)))
    ∧ moveFile (fun _ => true)
        (.dir 493 true (.cons "s" (.file [1] 420 true)
          (.cons "f" (.file [9] 420 true) .nil))) true ["s"] ["f"]
      = (.destIsFile,
         .dir 493 true (.cons "s" (.file [1] 420 true)
           (.cons "f" (.file [9] 420 true) .nil)))
    ∧ moveFile (fun _ => true)
        (.dir 493 true (.cons "s" (.file [1] 420 true)
          (.cons "d" (.dir 493 true .nil) .nil))) true ["s"] ["d"]
      = (.renamed,
         writeAt
           (eraseAt (.dir 493 true (.cons "s" (.file [1] 420 true)
             (.cons "d" (.dir 493 true .nil) .nil))) ["s"])
           (["d"] ++ [baseNameOf ["s"]]) (.file [1] 420 true)) :=
  ⟨(move_resolves_destination (fun _ => true)
      (.dir 493 true (.cons "s" (.file [1] 420 true)
        (.cons "d" (.dir 493 true (.cons "s" (.file [2] 420 true) .nil)) .nil)))
      ["s"] ["d"] (.file [1] 420 true) (by decide)).1 493 true
      (.cons "s" (.file [2] 420 true) .nil) (by decide) (by decide) true,
   (move_resolves_destination (fun _ => true)
      (.dir 493 true (.cons "s" (.file [1] 420 true)
        (.cons "f" (.file [9] 420 true) .nil)))
      ["s"] ["f"] (.file [1] 420 true) (by decide)).2.1 [9] 420 true (by decide) true,
   (move_resolves_destination (fun _ => true)
      (.dir 493 true (.cons "s" (.file [1] 420 true)
        (.cons "d" (.dir 493 true .nil) .nil)))
      ["s"] ["d"] (.file [1] 420 true) (by decide)).2.2 493 true .nil
      (by decide) (by decide)⟩

theorem copyFileInternal_fail (fs : FNode) (s d : List String)
    (h : (copyFileInternal fs s d).1 = false) : copyFileInternal fs s d = (false, fs) := by
  rcases hl : lookupN fs s with _ | n
  · simp [copyFileInternal, hl]
  · match n with
    | .dir _ _ _ => simp [copyFileInternal, hl]
    | .file c pm ok =>
      by_cases hk : ok = true
      · by_cases hcnd : (isDirAt fs d.dropLast && !(isDirAt fs d)) = true
        · rw [copyFileInternal, hl] at h
          simp [hk, hcnd] at h
        · simp only [Bool.not_eq_true] at hcnd
          simp [copyFileInternal, hl, hk, hcnd]
      · simp only [Bool.not_eq_true] at hk
        simp [copyFileInternal, hl, hk]

theorem copyFileInternal_lookup_frame (fs : FNode) (s d : List String)
    (h1 : pathLe d s = false) (h2 : pathLe s d = false) :
    lookupN (copyFileInternal fs s d).2 s = lookupN fs s := by
  rcases hl : lookupN fs s with _ | n
  · simp [copyFileInternal, hl]
  · match n with
    | .dir _ _ _ => simp [copyFileInternal, hl]
    | .file c pm ok =>
      by_cases hk : ok = true
      · by_cases hcnd : (isDirAt fs d.dropLast && !(isDirAt fs d)) = true
        · simp only [copyFileInternal, hl, hk, hcnd, if_true]
          rw [lookupN_writeAt_frame d fs (.file c pm true) s h1 h2]
          rw [hk] at hl
          exact hl
        · simp only [Bool.not_eq_true] at hcnd
          simp [copyFileInternal, hl, hk, hcnd]
      · simp only [Bool.not_eq_true] at hk
        simp [copyFileInternal, hl, hk]

theorem copyDirectoryRecursiveAt_lookup_frame (fs : FNode) (s d : List String)
    (h1 : pathLe d s = false) (h2 : pathLe s d = false) :
    lookupN (copyDirectoryRecursiveAt fs s d).2 s = lookupN fs s := by
  rcases hl : lookupN fs s with _ | n
  · simp [copyDirectoryRecursiveAt, hl]
  · by_cases hex : existsAt fs d = true
    · simp [copyDirectoryRecursiveAt, hl, hex]
    · simp only [Bool.not_eq_true] at hex
      by_cases hpar : isDirAt fs d.dropLast = true
      · rcases hcn : copyNode n with ⟨cs, cd⟩
        simp only [copyDirectoryRecursiveAt, hl, hex, hpar, hcn, Bool.false_eq_true,
          if_false, if_true]
        rw [lookupN_writeAt_frame d fs cd s h1 h2]
        exact hl
      · simp only [Bool.not_eq_true] at hpar
        simp [copyDirectoryRecursiveAt, hl, hex, hpar]

/-- C3.  The move strategy, for a fresh destination and non-overlapping
source/destination.  (1) The atomic `rename` is attempted first: when it
succeeds the result is exactly the rename effect — no copying, no recursive
deletion.  (2) Only when the rename fails does the copy-then-delete fallback
run, and the source is removed only after the copy has fully succeeded: for a
file source, a failed `copyFileInternal` leaves the store untouched with the
source intact, a successful copy followed by a failed `unlink` reports
`copiedButSourceRetained` with the source still present, and only a
successful copy followed by a successful `unlink` erases the source.  (3) The
same discipline for a directory source with the recursive copy and recursive
delete: a failed copy retains the source, a failed delete-after-copy reports
`copiedButSourceRetained` and the source path still exists. -/
theorem move_renames_first_and_never_loses_source (uok : List String → Bool)
    (fs : FNode) (srcPath dstPath : List String) (srcNode : FNode)
    (hsrc : lookupN fs srcPath = some srcNode)
    (hdst : lookupN fs dstPath = none)
    (hd1 : pathLe srcPath dstPath = false) (hd2 : pathLe dstPath srcPath = false) :
    (isDirAt fs dstPath.dropLast = true →
       moveFile uok fs true srcPath dstPath
         = (.renamed, writeAt (eraseAt fs srcPath) dstPath srcNode))
  ∧ (∀ c pm pok, srcNode = .file c pm pok →
      ((copyFileInternal fs srcPath dstPath).1 = false →
         moveFile uok fs false srcPath dstPath = (.moveFailed, fs))
    ∧ (∀ fs₁, copyFileInternal fs srcPath dstPath = (true, fs₁) →
        (uok srcPath = false →
           moveFile uok fs false srcPath dstPath = (.copiedButSourceRetained, fs₁)
           ∧ lookupN fs₁ srcPath = some srcNode)
      ∧ (uok srcPath = true →
           moveFile uok fs false srcPath dstPath = (.movedCopyDelete, eraseAt fs₁ srcPath))))
  ∧ (∀ dpm dok dcs, srcNode = .dir dpm dok dcs →
      ((copyDirectoryRecursiveAt fs srcPath dstPath).1 = false →
         moveFile uok fs false srcPath dstPath
           = (.moveFailed, (copyDirectoryRecursiveAt fs srcPath dstPath).2)
         ∧ lookupN (copyDirectoryRecursiveAt fs srcPath dstPath).2 srcPath = some srcNode)
    ∧ (∀ fs₁, copyDirectoryRecursiveAt fs srcPath dstPath = (true, fs₁) →
        (∀ res tr, deleteDirectoryRecursive uok srcPath srcNode = (false, res, tr) →
           moveFile uok fs false srcPath dstPath
             = (.copiedButSourceRetained, writeAt fs₁ srcPath (res.getD srcNode))
           ∧ existsAt (writeAt fs₁ srcPath (res.getD srcNode)) srcPath = true)
      ∧ ((deleteDirectoryRecursive uok srcPath srcNode).1 = true →
           moveFile uok fs false srcPath dstPath = (.movedCopyDelete, eraseAt fs₁ srcPath)))) := by
  refine ⟨fun hpar => ?_, fun c pm pok hfile => ?_, fun dpm dok dcs hdir => ?_⟩
  · simp [moveFile, resolveDest, hsrc, hdst, hpar]
  · subst hfile
    refine ⟨fun hcf => ?_, fun fs₁ hcp => ⟨fun huk => ⟨?_, ?_⟩, fun huk => ?_⟩⟩
    · have hres := copyFileInternal_fail fs srcPath dstPath hcf
      simp [moveFile, resolveDest, hsrc, hdst, hres]
    · simp [moveFile, resolveDest, hsrc, hdst, hcp, huk]
    · have := copyFileInternal_lookup_frame fs srcPath dstPath hd2 hd1
      rw [hcp] at this
      rw [this, hsrc]
    · simp [moveFile, resolveDest, hsrc, hdst, hcp, huk]
  · subst hdir
    have hframe := copyDirectoryRecursiveAt_lookup_frame fs srcPath dstPath hd2 hd1
    refine ⟨fun hcf => ⟨?_, ?_⟩, fun fs₁ hcp => ⟨fun res tr hdel => ⟨?_, ?_⟩, fun hdel => ?_⟩⟩
    · rcases hcp : copyDirectoryRecursiveAt fs srcPath dstPath with ⟨s, fs₁⟩
      rw [hcp] at hcf
      simp only at hcf
      subst hcf
      simp [moveFile, resolveDest, hsrc, hdst, hcp]
    · rw [hframe, hsrc]
    · simp [moveFile, resolveDest, hsrc, hdst, hcp, hdel]
    · have hl1 : lookupN fs₁ srcPath = some (.dir dpm dok dcs) := by
        rw [hcp] at hframe
        simp only at hframe
        rw [hframe, hsrc]
      have := lookupN_writeAt_self srcPath fs₁ (res.getD (.dir dpm dok dcs))
        (.dir dpm dok dcs) hl1
      simp [existsAt, this]
    · rcases hde : deleteDirectoryRecursive uok srcPath (.dir dpm dok dcs)
        with ⟨s, res', tr'⟩
      rw [hde] at hdel
      simp only at hdel
      subst hdel
      simp [moveFile, resolveDest, hsrc, hdst, hcp, hde]

/-- Witness for C3: moving the file "src" to the fresh path "dst"; when the
rename works it alone runs, and with the rename failing and `unlink` denied
the copy lands at "dst" while "src" survives and the outcome says so. -/
theorem move_renames_first_and_never_loses_source_witness :
    moveFile (fun _ => false)
        (.dir 493 true (.cons "src" (.file [5] 420 true) .nil)) true ["src"] ["dst"]
      = (.renamed,
         writeAt (eraseAt (.dir 493 true (.cons "src" (.file [5] 420 true) .nil)) ["src"])
           ["dst"] (.file [5] 420 true))
  ∧ (moveFile (fun _ => false)
        (.dir 493 true (.cons "src" (.file [5] 420 true) .nil)) false ["src"] ["dst"]
      = (.copiedButSourceRetained,
         .dir 493 true (.cons "src" (.file [5] 420 true)
           (.cons "dst" (.file [5] 420 true) .nil)))
     ∧ lookupN (.dir 493 true (.cons "src" (.file [5] 420 true)
           (.cons "dst" (.file [5] 420 true) .nil))) ["src"]
         = some (.file [5] 420 true)) := by
  have h := move_renames_first_and_never_loses_source (fun _ => false)
    (.dir 493 true (.cons "src" (.file [5] 420 true) .nil)) ["src"] ["dst"]
    (.file [5] 420 true) (by decide) (by decide) (by decide) (by decide)
  exact ⟨h.1 (by decide),
    ((h.2.1 [5] 420 true rfl).2
      (.dir 493 true (.cons "src" (.file [5] 420 true)
        (.cons "dst" (.file [5] 420 true) .nil))) (by decide)).1 (by decide)⟩

/-!  ## Single-file copy with ancestor creation — src/unnamed/part_000,
`copyRecursively` (233–257), file branch (250–253)

For a regular-file source the companion implementation runs
`fs::create_directories(d.parent_path())` and then
`fs::copy_file(s, d, copy_options::overwrite_existing)`: every missing
ancestor directory of the destination is created, the byte content is
duplicated, the file attributes (permission bits) are copied, and an existing
regular file at the destination is replaced.  `copy_file` fails on an
unreadable source, a destination that is (or whose parent chain is blocked
by) a directory conflict, or a destination equal to the source. -/

theorem pathLe_concat_proper : ∀ (r p : List String) (x : String),
    pathLe r (p ++ [x]) = true → r ≠ p ++ [x] → pathLe r p = true
  | [], _, _, _, _ => rfl
  | a :: as, [], x, h, hne => by
    simp only [List.nil_append, pathLe, Bool.and_eq_true, beq_iff_eq] at h
    rcases h with ⟨rfl, h2⟩
    match as, h2 with
    | [], _ => exact absurd rfl hne
  | a :: as, b :: bs, x, h, hne => by
    simp only [List.cons_append, pathLe, Bool.and_eq_true, beq_iff_eq] at h ⊢
    refine ⟨h.1, pathLe_concat_proper as bs x h.2 fun hc => ?_⟩
    exact hne (by rw [h.1, hc, List.cons_append])

/-- After `create_directories(p)` every initial segment of `p` is a
directory, provided no regular file already blocks the chain. -/
theorem mkdirAll_dirs : ∀ (p : List String) (fs : FNode),
    (∀ q, pathLe q p = true → isFileAt fs q = false) →
    ∀ q, pathLe q p = true → isDirAt (mkdirAll fs p) q = true
  | [], fs, hnf, q, hq => by
    match q, hq with
    | [], _ =>
      have := hnf [] (by rfl)
      match fs, this with
      | .dir pm ok cs, _ => simp [mkdirAll, isDirAt, lookupN]
      | .file c pm ok, h => simp [isFileAt, lookupN] at h
  | a :: rest, fs, hnf, q, hq => by
    match fs with
    | .file c pm ok =>
      have := hnf [] (by rfl)
      simp [isFileAt, lookupN] at this
    | .dir pm ok cs =>
      match hf : cs.find? a with
      | some child =>
        have hsub : ∀ q', pathLe q' rest = true → isFileAt child q' = false := by
          intro q' hq'
          have := hnf (a :: q') (by simp [pathLe, hq'])
          simpa [isFileAt, lookupN, hf] using this
        match q, hq with
        | [], _ => simp [mkdirAll, hf, isDirAt, lookupN]
        | b :: q', hq =>
          simp only [pathLe, Bool.and_eq_true, beq_iff_eq] at hq
          rcases hq with ⟨rfl, hq'⟩
          have ih := mkdirAll_dirs rest child hsub q' hq'
          simp only [mkdirAll, hf, isDirAt, lookupN,
            find?_replace_eq cs b (mkdirAll child rest) child hf]
          simpa [isDirAt] using ih
      | none =>
        have hempty : ∀ q', pathLe q' rest = true →
            isFileAt (.dir 493 true .nil) q' = false := by
          intro q' _
          match q' with
          | [] => simp [isFileAt, lookupN]
          | c :: q'' => simp [isFileAt, lookupN, FEntries.find?]
        match q, hq with
        | [], _ => simp [mkdirAll, hf, isDirAt, lookupN]
        | b :: q', hq =>
          simp only [pathLe, Bool.and_eq_true, beq_iff_eq] at hq
          rcases hq with ⟨rfl, hq'⟩
          have ih := mkdirAll_dirs rest (.dir 493 true .nil) hempty q' hq'
          simp only [mkdirAll, hf, isDirAt, lookupN, find?_setEntry_eq]
          simpa [isDirAt] using ih

/-- `create_directories(p)` neither creates nor alters a direct entry of `p`:
looking up `p ++ [x]` is unchanged (a freshly created `p` is empty). -/
theorem mkdirAll_lookup_concat : ∀ (p : List String) (fs : FNode) (x : String),
    lookupN (mkdirAll fs p) (p ++ [x]) = lookupN fs (p ++ [x])
  | [], fs, x => by cases fs <;> simp [mkdirAll]
  | a :: rest, .file c pm ok, x => by simp [mkdirAll]
  | a :: rest, .dir pm ok cs, x => by
    match hf : cs.find? a with
    | some child =>
      simp only [List.cons_append, mkdirAll, hf, lookupN,
        find?_replace_eq cs a (mkdirAll child rest) child hf]
      exact mkdirAll_lookup_concat rest child x
    | none =>
      simp only [List.cons_append, mkdirAll, hf, lookupN, find?_setEntry_eq]
      rw [mkdirAll_lookup_concat rest (.dir 493 true .nil) x]
      match rest with
      | [] => simp [lookupN, FEntries.find?]
      | y :: r => simp [lookupN, FEntries.find?]

/-- When every proper initial segment of `q` is a directory, writing at `q`
lands: the written node is found at `q` afterwards. -/
theorem writeAt_hit : ∀ (q : List String) (fs m : FNode), q ≠ [] →
    (∀ r, pathLe r q = true → r ≠ q → isDirAt fs r = true) →
    lookupN (writeAt fs q m) q = some m
  | [], _, _, hne, _ => absurd rfl hne
  | [a], fs, m, _, hdirs => by
    have hroot := hdirs [] (by rfl) (by simp)
    match fs, hroot with
    | .dir pm ok cs, _ => simp [writeAt, lookupN, find?_setEntry_eq]
  | a :: b :: rest, fs, m, _, hdirs => by
    have hroot := hdirs [] (by rfl) (by simp)
    match fs, hroot with
    | .dir pm ok cs, _ =>
      have hchild := hdirs [a] (by simp [pathLe]) (by simp)
      simp only [isDirAt, lookupN] at hchild
      match hf : cs.find? a, hchild with
      | some child, hchild =>
        have hsub : ∀ r, pathLe r (b :: rest) = true → r ≠ b :: rest →
            isDirAt child r = true := by
          intro r hr hne
          have := hdirs (a :: r) (by simp [pathLe, hr]) (by simp [hne])
          simpa [isDirAt, lookupN, hf] using this
        simp only [writeAt, hf, lookupN,
          find?_replace_eq cs a (writeAt child (b :: rest) m) child hf]
        exact writeAt_hit (b :: rest) child m (by simp) hsub

/-- Writing below a directory leaves it a directory (same perms and flag). -/
theorem writeAt_on_dir (q : List String) (dpm : Nat) (dok : Bool) (dcs : FEntries)
    (m : FNode) (h : q ≠ []) :
    ∃ des, writeAt (.dir dpm dok dcs) q m = .dir dpm dok des := by
  match q with
  | [a] => exact ⟨dcs.setEntry a m, rfl⟩
  | a :: b :: rest =>
    match hf : dcs.find? a with
    | some child =>
      exact ⟨dcs.replace a (writeAt child (b :: rest) m), by simp [writeAt, hf]⟩
    | none => exact ⟨dcs, by simp [writeAt, hf]⟩

/-- Writing at `q` keeps every proper ancestor of `q` a directory. -/
theorem writeAt_keeps_dir : ∀ (r q : List String) (fs m : FNode),
    pathLe r q = true → r ≠ q → isDirAt fs r = true →
    isDirAt (writeAt fs q m) r = true
  | [], q, fs, m, _, hne, hdir => by
    match fs, hdir with
    | .dir dpm dok dcs, _ =>
      have hq : q ≠ [] := fun hc => hne (by rw [hc])
      obtain ⟨des, hdes⟩ := writeAt_on_dir q dpm dok dcs m hq
      simp [hdes, isDirAt, lookupN]
  | c :: r', q, fs, m, hle, hne, hdir => by
    match q, hle with
    | a :: q', hle =>
      simp only [pathLe, Bool.and_eq_true, beq_iff_eq] at hle
      obtain ⟨hca, hle'⟩ := hle
      rw [← hca]
      match fs, hdir with
      | .file cc pm ok, hdir => simp [isDirAt, lookupN] at hdir
      | .dir pm ok cs, hdir =>
        match hf : cs.find? c, hdir with
        | some child, hdir =>
          have hchild : isDirAt child r' = true := by
            simpa [isDirAt, lookupN, hf] using hdir
          match q' with
          | [] =>
            match r', hle' with
            | [], _ => exact absurd (by rw [hca]) hne
          | b :: q'' =>
            have hr'ne : r' ≠ b :: q'' := fun hc => hne (by rw [hca, hc])
            have ih := writeAt_keeps_dir r' (b :: q'') child m hle' hr'ne hchild
            simp only [writeAt, hf, isDirAt, lookupN,
              find?_replace_eq cs c (writeAt child (b :: q'') m) child hf]
            simpa [isDirAt] using ih
        | none, hdir => simp [isDirAt, lookupN, hf] at hdir

/-- Decidable form of "no regular file blocks the directory chain `p`":
walking `p` from the root meets only directories (missing components are
fine — they will be created). -/
def chainClear : FNode → List String → Bool
  | .file _ _ _, _ => false
  | .dir _ _ _, [] => true
  | .dir _ _ cs, a :: rest =>
    match cs.find? a with
    | some child => chainClear child rest
    | none => true

theorem chainClear_spec : ∀ (p : List String) (fs : FNode), chainClear fs p = true →
    ∀ q, pathLe q p = true → isFileAt fs q = false
  | _, .file c pm ok, h, _, _ => by simp [chainClear] at h
  | [], .dir pm ok cs, _, q, hq => by
    match q, hq with
    | [], _ => simp [isFileAt, lookupN]
  | a :: rest, .dir pm ok cs, h, q, hq => by
    match q, hq with
    | [], _ => simp [isFileAt, lookupN]
    | b :: q', hq =>
      simp only [pathLe, Bool.and_eq_true, beq_iff_eq] at hq
      obtain ⟨hba, hq'⟩ := hq
      rw [hba]
      match hf : cs.find? a with
      | some child =>
        have hcc : chainClear child rest = true := by
          simpa [chainClear, hf] using h
        have := chainClear_spec rest child hcc q' hq'
        simpa [isFileAt, lookupN, hf] using this
      | none => simp [isFileAt, lookupN, hf]

/-- The file branch of `copyRecursively` (src/unnamed/part_000, 233–257; the
branch itself is lines 250–253): `create_directories(d.parent_path())`, then
`copy_file(s, d, overwrite_existing)` — which duplicates content and
attributes (permission bits), replaces an existing regular file at `d`, and
fails on an unreadable source, on `d` equal to `s`, on a missing parent
chain, or on a directory sitting at `d`.  A missing source fails up front;
the directory branch of `copyRecursively` (238–249) is outside this model
and also mapped to the failure outcome. -/
def copyRecursivelyFileSrc (fs : FNode) (s d : List String) : Bool × FNode :=
  match lookupN fs s with
  | some (.file c pm ok) =>
    let fs₁ := mkdirAll fs d.dropLast
    if ok && !(s == d) && isDirAt fs₁ d.dropLast && !(isDirAt fs₁ d) then
      (true, writeAt fs₁ d (.file c pm true))
    else (false, fs₁)
  | _ => (false, fs)

/-- C7.  Copying an existing readable file to a destination whose directory
chain is not blocked by a regular file and which is not itself a directory:
the copy succeeds, every missing ancestor directory of the destination is
created (every proper initial segment of `d` is a directory afterwards), and
a `stat` of the destination afterwards yields exactly the source's byte
content and permission bits — overwriting whatever regular file may have been
at `d` (no hypothesis excludes one). -/
theorem copy_file_creates_ancestors_and_preserves (fs : FNode) (s d : List String)
    (c : List Nat) (pm : Nat)
    (hsrc : lookupN fs s = some (.file c pm true))
    (hdne : d ≠ []) (hsd : s ≠ d)
    (hchain : chainClear fs d.dropLast = true)
    (hnd : isDirAt fs d = false) :
    (copyRecursivelyFileSrc fs s d).1 = true
  ∧ lookupN (copyRecursivelyFileSrc fs s d).2 d = some (.file c pm true)
  ∧ (∀ q, pathLe q d = true → q ≠ d →
      isDirAt (copyRecursivelyFileSrc fs s d).2 q = true) := by
  have hnf := chainClear_spec d.dropLast fs hchain
  have hdirs₁ := mkdirAll_dirs d.dropLast fs hnf
  have hpar : isDirAt (mkdirAll fs d.dropLast) d.dropLast = true :=
    hdirs₁ d.dropLast (pathLe_refl _)
  have hdl : d.dropLast ++ [d.getLast hdne] = d := List.dropLast_append_getLast hdne
  have hnd₁ : isDirAt (mkdirAll fs d.dropLast) d = false := by
    have hlk := mkdirAll_lookup_concat d.dropLast fs (d.getLast hdne)
    rw [hdl] at hlk
    simp only [isDirAt] at hnd ⊢
    rw [hlk]
    exact hnd
  have hanc : ∀ q, pathLe q d = true → q ≠ d →
      isDirAt (mkdirAll fs d.dropLast) q = true := by
    intro q hq hne2
    refine hdirs₁ q ?_
    rw [← hdl] at hq hne2
    exact pathLe_concat_proper q d.dropLast (d.getLast hdne) hq hne2
  have hsd' : (s == d) = false := by
    simp only [beq_eq_false_iff_ne, ne_eq]
    exact hsd
  have hres : copyRecursivelyFileSrc fs s d
      = (true, writeAt (mkdirAll fs d.dropLast) d (.file c pm true)) := by
    simp [copyRecursivelyFileSrc, hsrc, hsd', hpar, hnd₁]
  refine ⟨by rw [hres], ?_, ?_⟩
  · rw [hres]
    exact writeAt_hit d (mkdirAll fs d.dropLast) (.file c pm true) hdne hanc
  · intro q hq hne
    rw [hres]
    exact writeAt_keeps_dir q d (mkdirAll fs d.dropLast) (.file c pm true) hq hne
      (hanc q hq hne)

/-- Witness for C7 at two stores: copying "s" to the deep fresh path
`a/b/t` (both missing ancestors get created), and copying "s" over the
existing file "t" (overwrite: the destination afterwards holds the source's
bytes and permission bits). -/
theorem copy_file_creates_ancestors_and_preserves_witness :
    (copyRecursivelyFileSrc (.dir 493 true (.cons "s" (.file [42] 493 true) .nil))
        ["s"] ["a", "b", "t"]).1 = true
  ∧ lookupN (copyRecursivelyFileSrc (.dir 493 true (.cons "s" (.file [42] 493 true) .nil))
        ["s"] ["a", "b", "t"]).2 ["a", "b", "t"] = some (.file [42] 493 true)
  ∧ isDirAt (copyRecursivelyFileSrc (.dir 493 true (.cons "s" (.file [42] 493 true) .nil))
        ["s"] ["a", "b", "t"]).2 ["a"] = true
  ∧ isDirAt (copyRecursivelyFileSrc (.dir 493 true (.cons "s" (.file [42] 493 true) .nil))
        ["s"] ["a", "b", "t"]).2 ["a", "b"] = true
  ∧ lookupN (copyRecursivelyFileSrc
        (.dir 493 true (.cons "s" (.file [42] 493 true)
          (.cons "t" (.file [9] 420 true) .nil))) ["s"] ["t"]).2 ["t"]
      = some (.file [42] 493 true) := by
  have h1 := copy_file_creates_ancestors_and_preserves
    (.dir 493 true (.cons "s" (.file [42] 493 true) .nil)) ["s"] ["a", "b", "t"]
    [42] 493 (by decide) (by decide) (by decide) (by decide) (by decide)
  have h2 := copy_file_creates_ancestors_and_preserves
    (.dir 493 true (.cons "s" (.file [42] 493 true)
      (.cons "t" (.file [9] 420 true) .nil))) ["s"] ["t"]
    [42] 493 (by decide) (by decide) (by decide) (by decide) (by decide)
  exact ⟨h1.1, h1.2.1, h1.2.2 ["a"] (by decide) (by decide),
    h1.2.2 ["a", "b"] (by decide) (by decide), h2.2.1⟩

/-!  ## Process-wide explorer state — src/File_Explorer.cpp, class members
(28–34) and the methods that touch them

The `FileExplorer` object carries four mutable members across calls:
`currentPath`, `fileList` (refilled by `listFiles`, 137–209), `recentFiles`
(pushed by `createFile` via `addToRecentFiles`, 92–106 / 249–260) and
`currentTheme` (set by `changeTheme`).  Filesystem effects and console output
are external; the oracles below stand for the results the OS returns.  Each
operation is modelled by its effect on the member state alone, exactly as the
C++ methods assign (or do not assign) those members. -/

structure ExplorerState where
  currentPath : String
  fileList : List String
  recentFiles : List String
  currentTheme : String
deriving DecidableEq

def maxRecentFiles : Nat := 10

/-- `addToRecentFiles` (92–106): drop an existing occurrence, push to the
front, and `pop_back` when the list exceeds `maxRecentFiles`. -/
def addToRecentFiles (st : ExplorerState) (filepath : String) : ExplorerState :=
  let l := filepath :: st.recentFiles.erase filepath
  { st with recentFiles := if l.length > maxRecentFiles then l.dropLast else l }

/-- Index of the last '/' in the string, as `find_last_of('/')`. -/
def lastSlashIdx : List Char → Option Nat
  | [] => none
  | c :: cs =>
    match lastSlashIdx cs with
    | some i => some (i + 1)
    | none => if c == '/' then some 0 else none

/-- `changeDirectory`'s ".." handling (215–222): cut at the last '/' unless
it is missing or at position 0, in which case the parent is "/". -/
def parentPath (s : String) : String :=
  match lastSlashIdx s.data with
  | some p => if p ≠ 0 then String.mk (s.data.take p) else "/"
  | none => "/"

/-- `changeDirectory` (212–242): compute the new path (parent for "..",
absolute as-is, otherwise relative to the current path) and assign it to
`currentPath` whenever `stat` reports a directory — the assignment happens
before `chdir`, so a failing `chdir` only changes the printed message. -/
def feChangeDirectory (st : ExplorerState) (path : String) (statIsDir : Bool) :
    ExplorerState :=
  let newPath :=
    if path == ".." then parentPath st.currentPath
    else if path.data.head? == some '/' then path
    else st.currentPath ++ "/" ++ path
  if statIsDir then { st with currentPath := newPath } else st

/-- `listFiles` (137–209): clears and refills the `fileList` member with the
names that `stat` succeeded on (supplied by the oracle). -/
def feListFiles (st : ExplorerState) (statOkNames : List String) : ExplorerState :=
  { st with fileList := statOkNames }

/-- `createFile` (249–260): on a successful `ofstream` open, the full path is
pushed onto the recent-files history; nothing else in the member state moves. -/
def feCreateFile (st : ExplorerState) (filename : String) (openOk : Bool) :
    ExplorerState :=
  if openOk then addToRecentFiles st (st.currentPath ++ "/" ++ filename) else st

/-- `createDirectory` (263–271): prints only; no member is assigned. -/
def feCreateDirectory (st : ExplorerState) (_dirname : String) (_mkdirOk : Bool) :
    ExplorerState := st

/-- `deleteItem` (274–310): no member is assigned. -/
def feDeleteItem (st : ExplorerState) (_name : String) (_confirmed : Bool) :
    ExplorerState := st

/-- `copyFile` (390–422): no member is assigned. -/
def feCopyFile (st : ExplorerState) (_source _destination : String) : ExplorerState := st

/-- `moveFile` (471–547): no member is assigned. -/
def feMoveFile (st : ExplorerState) (_source _destination : String) : ExplorerState := st

/-- `renameItem` (550–576): no member is assigned. -/
def feRenameItem (st : ExplorerState) (_oldName _newName : String) : ExplorerState := st

/-- `searchFiles` (579–594): results live in a local vector; no member is
assigned. -/
def feSearchFiles (st : ExplorerState) (_term : String) : ExplorerState := st

/-- `viewPermissions` (634–654): no member is assigned. -/
def feViewPermissions (st : ExplorerState) (_filename : String) : ExplorerState := st

/-- `changePermissions` (656–673): no member is assigned. -/
def feChangePermissions (st : ExplorerState) (_filename _mode : String) :
    ExplorerState := st

/-- `changeOwner` (675–707): no member is assigned. -/
def feChangeOwner (st : ExplorerState) (_filename _owner _group : String) :
    ExplorerState := st

/-- Counterexample for C9 (claim as stated).  The current working path is not
the only process-wide mutable state: the create operation, one of the engine
operations the claim itself enumerates, mutates the persistent recent-files
member — after creating "notes.txt" the state differs from the initial state
even though `currentPath` never moved. -/
theorem create_file_mutates_more_than_current_path :
    feCreateFile ⟨"/home", [], [], "default"⟩ "notes.txt" true
        ≠ ⟨"/home", [], [], "default"⟩
      ∧ (feCreateFile ⟨"/home", [], [], "default"⟩ "notes.txt" true).recentFiles
        = ["/home/notes.txt"]
      ∧ (feCreateFile ⟨"/home", [], [], "default"⟩ "notes.txt" true).currentPath
        = "/home" := by
  refine ⟨?_, by decide, by decide⟩
  intro h
  have := congrArg ExplorerState.recentFiles h
  simp [feCreateFile, addToRecentFiles, maxRecentFiles] at this

/-- C9 (amended).  The current working path is mutated solely by the
directory-change operation: a directory change with a successful `stat`
assigns the computed path and with a failed `stat` leaves it alone, and every
other engine operation — list, create (file and directory), copy, delete,
move, rename, search, and the permission/ownership changes — leaves
`currentPath` unchanged.  (It is, however, not the only process-wide mutable
state: `feListFiles` rewrites the cached file list and `feCreateFile` the
recent-files history, which is the correction the counterexample forces.) -/
theorem only_change_directory_mutates_current_path :
    ∀ (st : ExplorerState) (p q r : String) (names : List String) (b : Bool),
      (feChangeDirectory st p false).currentPath = st.currentPath
    ∧ (feListFiles st names).currentPath = st.currentPath
    ∧ (feCreateFile st p b).currentPath = st.currentPath
    ∧ (feCreateDirectory st p b).currentPath = st.currentPath
    ∧ (feDeleteItem st p b).currentPath = st.currentPath
    ∧ (feCopyFile st p q).currentPath = st.currentPath
    ∧ (feMoveFile st p q).currentPath = st.currentPath
    ∧ (feRenameItem st p q).currentPath = st.currentPath
    ∧ (feSearchFiles st p).currentPath = st.currentPath
    ∧ (feViewPermissions st p).currentPath = st.currentPath
    ∧ (feChangePermissions st p q).currentPath = st.currentPath
    ∧ (feChangeOwner st p q r).currentPath = st.currentPath := by
  intro st p q r names b
  refine ⟨rfl, rfl, ?_, rfl, rfl, rfl, rfl, rfl, rfl, rfl, rfl, rfl⟩
  cases b <;> simp [feCreateFile, addToRecentFiles]
